import Mathlib

/-!
Verification development for the EMMI cryo-EM fitting action (`src/isdb/EMMI.cpp`)
and the replica-exchange pattern generator (`src/ExchangePatterns.cpp`).

The C++ code is shallowly embedded over an arbitrary `LinearOrderedField` so that
every definition stays computable (instantiable at `ℚ`); the theorems instantiate
the scalar type at `ℝ`.  External collaborators of the core (the C math-library
functions `exp`, `log`, `erf`, `sqrt`, and the host's periodic-boundary distance
primitive `pbcDistance`) are passed as explicit function parameters, exactly at
the interface granularity the code uses them.
-/

section DataModel

/-- A 3-vector (PLMD::Vector): positions and displacement vectors. -/
structure Vec3 (α : Type) where
  x : α
  y : α
  z : α

/-- A packed symmetric 3x3 matrix (PLMD::VectorGeneric<6>), with the layout used
throughout EMMI.cpp: entries 0..5 = (00, 01, 02, 11, 12, 22). -/
structure Sym6 (α : Type) where
  c0 : α
  c1 : α
  c2 : α
  c3 : α
  c4 : α
  c5 : α

end DataModel

section OverlapEngine

variable {α : Type} [LinearOrderedField α]

/-- PLMD `delta(a, b)`: the raw difference b - a (no periodic imaging). -/
def deltaV (a b : Vec3 α) : Vec3 α :=
  ⟨b.x - a.x, b.y - a.y, b.z - a.z⟩

/-- Minimal-image displacement for a unit cubic box: a concrete admissible
instance of the host's periodic-boundary distance primitive `pbcDistance`
(an external collaborator, specified only at its interface). -/
def boxDist [FloorRing α] (a b : Vec3 α) : Vec3 α :=
  ⟨b.x - a.x - round (b.x - a.x),
   b.y - a.y - round (b.y - a.y),
   b.z - a.z - round (b.z - a.z)⟩

/-- Entrywise sum of two packed covariance matrices
(`sum[k] = GMM_cov_0[k] + GMM_cov_1[k]`, EMMI.cpp:881). -/
def sumCov (a b : Sym6 α) : Sym6 α :=
  ⟨a.c0 + b.c0, a.c1 + b.c1, a.c2 + b.c2, a.c3 + b.c3, a.c4 + b.c4, a.c5 + b.c5⟩

/-- Closed 3-term determinant expansion of a packed symmetric 3x3 matrix
(EMMI.cpp:884-886). -/
def det6 (s : Sym6 α) : α :=
  s.c0 * (s.c3 * s.c5 - s.c4 * s.c4)
    - s.c1 * (s.c1 * s.c5 - s.c4 * s.c2)
    + s.c2 * (s.c1 * s.c4 - s.c3 * s.c2)

/-- Analytic adjugate/determinant inverse of a packed symmetric 3x3 matrix
(EMMI.cpp:892-897, the `inv_sum` computed by `EMMI::get_prefactor_inverse`). -/
def invCov (s : Sym6 α) : Sym6 α :=
  ⟨(s.c3 * s.c5 - s.c4 * s.c4) / det6 s,
   (s.c2 * s.c4 - s.c1 * s.c5) / det6 s,
   (s.c1 * s.c4 - s.c2 * s.c3) / det6 s,
   (s.c0 * s.c5 - s.c2 * s.c2) / det6 s,
   (s.c2 * s.c1 - s.c0 * s.c4) / det6 s,
   (s.c0 * s.c3 - s.c1 * s.c1) / det6 s⟩

/-- The prefactor returned by `EMMI::get_prefactor_inverse` (EMMI.cpp:889):
`pre_fact = cfact / sqrt(det) * w0 * w1`, where `cfact = 1/(2*pi)^1.5` is
computed once in the constructor (EMMI.cpp:410) and `sqrt` is the C
math-library square root. -/
def pre_fact (cfact : α) (sqrt : α → α) (cov0 cov1 : Sym6 α) (w0 w1 : α) : α :=
  cfact / sqrt (det6 (sumCov cov0 cov1)) * w0 * w1

/-- The quadratic form md^T * inv_cov_md * md through the packed inverse
covariance sum (EMMI.cpp:929-933 and identically 950-954). -/
def quadForm (inv_cov_md : Sym6 α) (md : Vec3 α) : α :=
  let p_x := md.x * inv_cov_md.c0 + md.y * inv_cov_md.c1 + md.z * inv_cov_md.c2
  let p_y := md.x * inv_cov_md.c1 + md.y * inv_cov_md.c3 + md.z * inv_cov_md.c4
  let p_z := md.x * inv_cov_md.c2 + md.y * inv_cov_md.c4 + md.z * inv_cov_md.c5
  md.x * p_x + md.y * p_y + md.z * p_z

/-- `EMMI::get_overlap` (EMMI.cpp:921-939), value part: the displacement is
`pbcDistance(d_m, m_m)` when periodicity is enabled and `delta(d_m, m_m)`
otherwise, and the overlap is `pre_fact * exp(-0.5 * quadForm)`.  `exp` is the C
math-library exponential, `pbcDist` the host's periodic distance primitive. -/
def get_overlap (exp : α → α) (pbc : Bool) (pbcDist : Vec3 α → Vec3 α → Vec3 α)
    (m_m d_m : Vec3 α) (pf : α) (inv_cov_md : Sym6 α) : α :=
  pf * exp (-(1 / 2) * quadForm inv_cov_md (if pbc then pbcDist d_m m_m else deltaV d_m m_m))

/-- `EMMI::get_exp_overlap` (EMMI.cpp:942-956): only the exponent (quadratic
form) of the overlap, used for the neighbor-list decision. -/
def get_exp_overlap (pbc : Bool) (pbcDist : Vec3 α → Vec3 α → Vec3 α)
    (m_m d_m : Vec3 α) (inv_cov_md : Sym6 α) : α :=
  quadForm inv_cov_md (if pbc then pbcDist d_m m_m else deltaV d_m m_m)

/-- `EMMI::get_self_overlap` (EMMI.cpp:903-918): dense sum over all data GMM
components of the pairwise overlap of component `id` with component `i`,
accumulated exactly as the source loop does.  Data is given by the component
count `n` and per-component mean `m`, covariance `cov` and weight `w`. -/
def get_self_overlap (exp : α → α) (pbc : Bool) (pbcDist : Vec3 α → Vec3 α → Vec3 α)
    (cfact : α) (sqrt : α → α) (n : ℕ) (m : ℕ → Vec3 α) (cov : ℕ → Sym6 α) (w : ℕ → α)
    (id : ℕ) : α :=
  (List.range n).foldl (fun ov_tot i =>
    ov_tot + get_overlap exp pbc pbcDist (m id) (m i)
      (pre_fact cfact sqrt (cov id) (cov i) (w id) (w i))
      (invCov (sumCov (cov id) (cov i)))) 0

end OverlapEngine

section NeighborList

/-- `ov_m[ov] = im` on a `std::map<double, unsigned>` (EMMI.cpp:990), modelled as
an association list: assign overwrites an existing key, otherwise appends. -/
def mapAssign (m : List (ℚ × ℕ)) (k : ℚ) (v : ℕ) : List (ℚ × ℕ) :=
  if k ∈ m.map Prod.fst then
    m.map (fun p => if p.1 = k then (k, v) else p)
  else m ++ [(k, v)]

/-- Building the overlap-to-atom map `ov_m` from the surviving (overlap, atom)
candidates of one data component (EMMI.cpp:986-992), starting from
accumulator `m`. -/
def buildOvMapAux (m : List (ℚ × ℕ)) (cands : List (ℚ × ℕ)) : List (ℚ × ℕ) :=
  cands.foldl (fun acc c => mapAssign acc c.1 c.2) m

/-- The full `ov_m` map for a component's candidate list. -/
def buildOvMap (cands : List (ℚ × ℕ)) : List (ℚ × ℕ) :=
  buildOvMapAux [] cands

/-- `ov_m.erase(ov_l[i])` (EMMI.cpp:1006): drop the entry with the given key. -/
def mapErase (m : List (ℚ × ℕ)) (k : ℚ) : List (ℚ × ℕ) :=
  m.filter (fun p => decide (p.1 ≠ k))

/-- The integration loop of `EMMI::update_neighbor_list` (EMMI.cpp:1001-1007):
walk the ascending overlap values, accumulate `res`; once `res >= ov_cut` stop,
otherwise erase the current (smallest) contributor from the map and continue. -/
def nlEraseLoop (ov_cut : ℚ) : ℚ → List ℚ → List (ℚ × ℕ) → List (ℚ × ℕ)
  | _, [], m => m
  | res, o :: rest, m =>
    if ov_cut ≤ res + o then m
    else nlEraseLoop ov_cut (res + o) rest (mapErase m o)

/-- Proof artifact: the keys the integration loop erases (the longest initial
run of the sorted overlaps whose running sum stays strictly below the cutoff). -/
def erasedKeys (ov_cut : ℚ) : ℚ → List ℚ → List ℚ
  | _, [] => []
  | res, o :: rest =>
    if ov_cut ≤ res + o then []
    else o :: erasedKeys ov_cut (res + o) rest

/-- The per-component core of `EMMI::update_neighbor_list` (EMMI.cpp:969-1010),
acting on the list of surviving (table-approximated overlap, atom index)
candidates: `ov_l` is the overlap list, `ov_tot` its sum,
`ov_cut = ov_tot * nl_cutoff`, `ov_l` is sorted ascending (std::sort), and the
integration loop erases the smallest contributors from `ov_m`; the retained map
entries are the component's neighbor-list atoms. -/
def update_nl_component (nl_cutoff : ℚ) (cands : List (ℚ × ℕ)) : List (ℚ × ℕ) :=
  nlEraseLoop ((cands.map Prod.fst).sum * nl_cutoff) 0
    (List.insertionSort (· ≤ ·) (cands.map Prod.fst)) (buildOvMap cands)

end NeighborList

section MonteCarlo

variable {α : Type} [LinearOrderedField α]

/-- First boundary check of `EMMI::doMonteCarlo` (EMMI.cpp:647):
`if (new_s > sigma_max) new_s = 2*sigma_max - new_s`. -/
def reflectHi (sigma_max x : α) : α :=
  if sigma_max < x then 2 * sigma_max - x else x

/-- Both boundary checks of `EMMI::doMonteCarlo` (EMMI.cpp:647-648), applied in
source order: first the upper mirror, then
`if (new_s < sigma_min) new_s = 2*sigma_min - new_s`. -/
def reflectBounds (sigma_min sigma_max x : α) : α :=
  if reflectHi sigma_max x < sigma_min then 2 * sigma_min - reflectHi sigma_max x
  else reflectHi sigma_max x

/-- Squared Euclidean length of the difference of two component means; the
source tests `(m_i - m_j).modulo() <= MCcut_` (EMMI.cpp:544-546), which for a
nonnegative cutoff is equivalent to the squared comparison used here (kept in
`ℚ` so the predicate stays decidable). -/
def dist2 (a b : Vec3 ℚ) : ℚ :=
  (a.x - b.x) ^ 2 + (a.y - b.y) ^ 2 + (a.z - b.z) ^ 2

/-- `EMMI::prepareCollectiveMC` (EMMI.cpp:531-551): for every data component
`i`, the list of components `j` whose mean lies within `MCcut_` of mean `i`. -/
def prepareCollectiveMC (ms : List (Vec3 ℚ)) (MCcut : ℚ) : List (List ℕ) :=
  (List.range ms.length).map (fun i =>
    (List.range ms.length).filter (fun j =>
      decide (dist2 (ms.getD i ⟨0, 0, 0⟩) (ms.getD j ⟨0, 0, 0⟩) ≤ MCcut * MCcut)))

/-- Loop body of the sampling branch of `EMMI::doMonteCarlo` (EMMI.cpp:635-655):
accumulates (old energy, new energy, proposed new sigmas) over the cluster.
`log` is the C math-library logarithm. -/
def mcStep (log : α → α) (kbt prior scale : α) (ovmd ovdd smean sigma smin smax : ℕ → α)
    (shift : α) : α × α × List α → ℕ → α × α × List α :=
  fun acc i =>
    let pre_fact := 1 / 2 * kbt * (scale * ovmd i - ovdd i) * (scale * ovmd i - ovdd i)
    let old_s2 := smean i * smean i + sigma i * sigma i
    let new_s := reflectBounds (smin i) (smax i) (sigma i + shift)
    let new_s2 := smean i * smean i + new_s * new_s
    (acc.1 + pre_fact / old_s2 + kbt * prior * log old_s2,
     acc.2.1 + pre_fact / new_s2 + kbt * prior * log new_s2,
     acc.2.2 ++ [new_s])

/-- The full cluster pass of `EMMI::doMonteCarlo` over the neighborhood
`MCneigh_[nGMM]`: old energy, new energy, and the `new_sigma` vector. -/
def mcLoop (log : α → α) (kbt prior scale : α) (ovmd ovdd smean sigma smin smax : ℕ → α)
    (shift : α) (neigh : List ℕ) : α × α × List α :=
  neigh.foldl (mcStep log kbt prior scale ovmd ovdd smean sigma smin smax shift) (0, 0, [])

/-- The commit on acceptance (EMMI.cpp:659):
`for j: sigma_[MCneigh_[nGMM][j]] = new_sigma[j]`, as sequential writes. -/
def mcCommitList (neigh : List ℕ) (new_sigma : List α) (sigma : ℕ → α) : ℕ → α :=
  (neigh.zip new_sigma).foldl (fun s p => fun i => if i = p.1 then p.2 else s i) sigma

/-- The non-sampling branch of `EMMI::doMonteCarlo` (EMMI.cpp:663-665):
every entry of `sigma_` is set to zero. -/
def mcNonSampling (sigma : ℕ → α) : ℕ → α :=
  fun _ => 0

/-- `sigma_min_.push_back(s0_exp)` (EMMI.cpp:470). -/
def sigma_min_of (s0_exp : α) : α := s0_exp

/-- `sigma_max_.push_back(2.0*ov_max + s0_exp + dsigma_)` (EMMI.cpp:472); note
`dsigma_` has already been rescaled by the median overlap at this point. -/
def sigma_max_of (ov_max s0_exp dsigma : α) : α := 2 * ov_max + s0_exp + dsigma

/-- `sigma_.push_back(max(sigma_min, min(sigma_max, sigma_ini*ov_base)))`
(EMMI.cpp:474). -/
def sigma_init (sigma_min sigma_max sigma_ini ov_base : α) : α :=
  max sigma_min (min sigma_max (sigma_ini * ov_base))

end MonteCarlo

section Scorers

variable {α : Type} [LinearOrderedField α]

/-- Inverse sigma squared computed on the master rank in
`EMMI::calculate_sigma` (EMMI.cpp:1167-1168):
`inv_s2[i] = 1/(sigma_mean[i]^2 + sigma[i]^2)`. -/
def inv_s2_of (smean sigma : ℕ → α) : ℕ → α :=
  fun i => 1 / (smean i * smean i + sigma i * sigma i)

/-- Score accumulation of `EMMI::calculate_sigma` (EMMI.cpp:1197-1204) on the
single-replica, single-worker path: the loop `ene += (scale*ovmd-ovdd)^2 *
inv_s2` followed by `ene *= 0.5*kbt`.  The prior term appears nowhere here. -/
def calculate_sigma_ene (kbt scale : α) (ovmd ovdd inv_s2 : ℕ → α) (n : ℕ) : α :=
  ((List.range n).foldl (fun ene i =>
    ene + (scale * ovmd i - ovdd i) * (scale * ovmd i - ovdd i) * inv_s2 i) 0)
    * (1 / 2 * kbt)

/-- The hard-coded constant `inv_sqrt2_(0.707106781186548)` (EMMI.cpp:277). -/
def inv_sqrt2 : ℚ := 0.707106781186548

/-- `sigma0_.push_back(sqrt(s0_exp^2 + sigma_mean^2))` (EMMI.cpp:477): the
marginal-mode uncertainty fixed at initialization; `sqrt` is the C math-library
square root. -/
def sigma0_of (sqrt : α → α) (s0_exp smean : α) : α :=
  sqrt (s0_exp * s0_exp + smean * smean)

/-- Score accumulation of `EMMI::calculate_marginal` (EMMI.cpp:1283-1295) on the
single-replica path: per component `dev = (scale*ovmd - ovdd)/sigma0`,
`err_f = erf(dev * inv_sqrt2)`, `ene += -log(0.5/dev * err_f)`, and finally
`ene *= kbt/escale` with `escale = 1/nrep`. -/
def calculate_marginal_ene (log erf : α → α) (kbt nrep scale : α)
    (ovmd ovdd sigma0 : ℕ → α) (n : ℕ) : α :=
  let escale := 1 / nrep
  ((List.range n).foldl (fun ene i =>
    let dev := (scale * ovmd i - ovdd i) / sigma0 i
    let err_f := erf (dev * (inv_sqrt2 : α))
    ene + -log (1 / 2 / dev * err_f)) 0)
    * (kbt / escale)

/-- Numerator accumulator of the weighted `EMMI::doRegression` (EMMI.cpp:1078):
`Bn += ovmd[i]*ovdd[i]*inv_s2[i]`. -/
def regBn (inv_s2 ovmd ovdd : ℕ → α) (n : ℕ) : α :=
  (List.range n).foldl (fun b i => b + ovmd i * ovdd i * inv_s2 i) 0

/-- Denominator accumulator of the weighted `EMMI::doRegression` (EMMI.cpp:1079):
`Bd += ovmd[i]*ovmd[i]*inv_s2[i]`. -/
def regBd (inv_s2 ovmd : ℕ → α) (n : ℕ) : α :=
  (List.range n).foldl (fun b i => b + ovmd i * ovmd i * inv_s2 i) 0

/-- Weighted `EMMI::doRegression` (EMMI.cpp:1072-1087): `scale = Bn/Bd`, reset
to 1 when either accumulator is non-positive. -/
def doRegressionW (inv_s2 ovmd ovdd : ℕ → α) (n : ℕ) : α :=
  if regBd inv_s2 ovmd n ≤ 0 ∨ regBn inv_s2 ovmd ovdd n ≤ 0 then 1
  else regBn inv_s2 ovmd ovdd n / regBd inv_s2 ovmd n

/-- Numerator accumulator of the unweighted `EMMI::doRegression`
(EMMI.cpp:1096): `Bn += ovmd[i]*ovdd[i]`. -/
def regBnU (ovmd ovdd : ℕ → α) (n : ℕ) : α :=
  (List.range n).foldl (fun b i => b + ovmd i * ovdd i) 0

/-- Denominator accumulator of the unweighted `EMMI::doRegression`
(EMMI.cpp:1097): `Bd += ovmd[i]*ovmd[i]`. -/
def regBdU (ovmd : ℕ → α) (n : ℕ) : α :=
  (List.range n).foldl (fun b i => b + ovmd i * ovmd i) 0

/-- Unweighted `EMMI::doRegression` (EMMI.cpp:1090-1105). -/
def doRegressionU (ovmd ovdd : ℕ → α) (n : ℕ) : α :=
  if regBdU ovmd n ≤ 0 ∨ regBnU ovmd ovdd n ≤ 0 then 1
  else regBnU ovmd ovdd n / regBdU ovmd n

end Scorers

section DataChecks

/-- `EMMI::check_GMM_d` (EMMI.cpp:770-783): the three leading principal minors
(Sylvester test on positive definiteness), then the weight check.  Note that
the weight test in the source is `if (w < 0.0)`. -/
def check_GMM_d (cov : Sym6 ℚ) (w : ℚ) : Except String Unit :=
  let pm1 := cov.c0
  let pm2 := cov.c0 * cov.c3 - cov.c1 * cov.c1
  let pm3 := cov.c0 * (cov.c3 * cov.c5 - cov.c4 * cov.c4)
    - cov.c1 * (cov.c1 * cov.c5 - cov.c4 * cov.c2)
    + cov.c2 * (cov.c1 * cov.c4 - cov.c3 * cov.c2)
  if pm1 ≤ 0 ∨ pm2 ≤ 0 ∨ pm3 ≤ 0 then
    Except.error "check data GMM: covariance matrix is not positive defined"
  else if w < 0 then
    Except.error "check data GMM: weight must be positive"
  else
    Except.ok ()

end DataChecks

section ExchangePatternsCode

/-- The retry loop inside `ExchangePatterns::getList`
(ExchangePatterns.cpp:21-26): draw `ind[i] = RandU01()*nrepl` (the C++
double-to-int conversion truncates, which is the floor for a nonnegative
value), redrawing while the value collides with an earlier entry.  `stream k`
is the k-th value produced by the generator; `fuel` bounds the retries so the
model is total — the claim is conditional on the loop returning. -/
def drawROne (stream : ℕ → ℚ) (nrepl : ℕ) (prev : List ℤ) : ℕ → ℕ → Option (ℤ × ℕ)
  | _, 0 => none
  | k, fuel + 1 =>
    if (⌊stream k * (nrepl : ℚ)⌋ : ℤ) ∈ prev then drawROne stream nrepl prev (k + 1) fuel
    else some (⌊stream k * (nrepl : ℚ)⌋, k + 1)

/-- The outer loop of `ExchangePatterns::getList` (ExchangePatterns.cpp:20-27):
fill the remaining `cnt` entries, threading the generator position. -/
def getListGo (stream : ℕ → ℚ) (nrepl : ℕ) : ℕ → List ℤ → ℕ → ℕ → Option (List ℤ)
  | 0, acc, _, _ => some acc
  | cnt + 1, acc, k, fuel =>
    match drawROne stream nrepl acc k fuel with
    | none => none
    | some (v, knew) => getListGo stream nrepl cnt (acc ++ [v]) knew fuel

/-- `ExchangePatterns::getList(ind, nrepl)` (ExchangePatterns.cpp:15-28). -/
def getList (stream : ℕ → ℚ) (nrepl fuel : ℕ) : Option (List ℤ) :=
  getListGo stream nrepl nrepl [] 0 fuel

end ExchangePatternsCode

section ExampleData

/-- Concrete two-component data-GMM means used to probe `get_self_overlap`:
component 0 at the origin, component 1 at (10, 0, 0). -/
def mEx {α : Type} [LinearOrderedField α] : ℕ → Vec3 α :=
  fun i => if i = 0 then ⟨0, 0, 0⟩ else ⟨10, 0, 0⟩

/-- Concrete isotropic covariance sigma^2 = 1/2 for the probe components, so
the summed covariance of any pair is the identity. -/
def covEx {α : Type} [LinearOrderedField α] : ℕ → Sym6 α :=
  fun _ => ⟨1 / 2, 0, 0, 1 / 2, 0, 1 / 2⟩

/-- Concrete unit weights for the probe components. -/
def wEx {α : Type} [LinearOrderedField α] : ℕ → α :=
  fun _ => 1

end ExampleData

section HelperLemmas

variable {α : Type} [LinearOrderedField α]

theorem foldl_add_eq (f : ℕ → α) :
    ∀ (l : List ℕ) (a : α), l.foldl (fun acc i => acc + f i) a = a + (l.map f).sum := by
  intro l
  induction l with
  | nil => intro a; simp
  | cons h t ih => intro a; simp only [List.foldl_cons, List.map_cons, List.sum_cons, ih]; ring

theorem map_add_sum (f g : ℕ → α) :
    ∀ l : List ℕ, (l.map (fun i => f i + g i)).sum = (l.map f).sum + (l.map g).sum := by
  intro l
  induction l with
  | nil => simp
  | cons h t ih => simp only [List.map_cons, List.sum_cons, ih]; ring

theorem map_mul_sum (c : α) (f : ℕ → α) :
    ∀ l : List ℕ, (l.map (fun i => c * f i)).sum = c * (l.map f).sum := by
  intro l
  induction l with
  | nil => simp
  | cons h t ih => simp only [List.map_cons, List.sum_cons, ih]; ring

theorem reflect_mem (smin smax sigma shift dsigma : α)
    (h1 : smin ≤ sigma) (h2 : sigma ≤ smax) (h3 : |shift| ≤ dsigma)
    (h4 : dsigma ≤ smax - smin) :
    smin ≤ reflectBounds smin smax (sigma + shift)
      ∧ reflectBounds smin smax (sigma + shift) ≤ smax := by
  obtain ⟨ha, hb⟩ := abs_le.mp h3
  unfold reflectBounds reflectHi
  split_ifs with hA hB hC <;> constructor <;> linarith

end HelperLemmas

section MonteCarloLemmas

variable {α : Type} [LinearOrderedField α]

theorem mcLoop_fold_spec (log : α → α) (kbt prior scale : α)
    (ovmd ovdd smean sigma smin smax : ℕ → α) (shift : α) :
    ∀ (neigh : List ℕ) (a : α × α × List α),
      (neigh.foldl (mcStep log kbt prior scale ovmd ovdd smean sigma smin smax shift) a).1
          = a.1 + (neigh.map (fun i =>
              1 / 2 * kbt * (scale * ovmd i - ovdd i) * (scale * ovmd i - ovdd i)
                / (smean i * smean i + sigma i * sigma i)
              + kbt * prior * log (smean i * smean i + sigma i * sigma i))).sum
        ∧ (neigh.foldl (mcStep log kbt prior scale ovmd ovdd smean sigma smin smax shift) a).2.2
          = a.2.2 ++ neigh.map (fun i => reflectBounds (smin i) (smax i) (sigma i + shift)) := by
  intro neigh
  induction neigh with
  | nil => intro a; simp
  | cons h t ih =>
    intro a
    simp only [List.foldl_cons, List.map_cons, List.sum_cons]
    obtain ⟨ih1, ih2⟩ :=
      ih (mcStep log kbt prior scale ovmd ovdd smean sigma smin smax shift a h)
    constructor
    · rw [ih1]; simp only [mcStep]; ring
    · rw [ih2]; simp [mcStep]

theorem commitFold_spec (φ : ℕ → α) :
    ∀ (l : List ℕ) (s : ℕ → α) (i : ℕ),
      ((l.map (fun j => (j, φ j))).foldl
          (fun s p => fun x => if x = p.1 then p.2 else s x) s) i
        = if i ∈ l then φ i else s i := by
  intro l
  induction l with
  | nil => intro s i; simp
  | cons h t ih =>
    intro s i
    simp only [List.map_cons, List.foldl_cons]
    rw [ih]
    by_cases hit : i ∈ t
    · simp [hit]
    · by_cases hih : i = h
      · simp [hit, hih]
      · simp [hit, hih]

theorem mcCommitList_eval (φ : ℕ → α) (neigh : List ℕ) (sigma : ℕ → α) (i : ℕ) :
    mcCommitList neigh (neigh.map φ) sigma i = if i ∈ neigh then φ i else sigma i := by
  unfold mcCommitList
  have hz : neigh.zip (neigh.map φ) = neigh.map (fun j => (j, φ j)) := by
    have h := List.zip_map' (fun j => j) φ neigh
    simpa using h
  rw [hz, commitFold_spec]

end MonteCarloLemmas

section NeighborListLemmas

theorem buildOvMapAux_eq :
    ∀ (cands m : List (ℚ × ℕ)), ((m ++ cands).map Prod.fst).Nodup →
      buildOvMapAux m cands = m ++ cands := by
  intro cands
  induction cands with
  | nil => intro m _; simp [buildOvMapAux]
  | cons c t ih =>
    intro m hnd
    have hkey : c.1 ∉ m.map Prod.fst := by
      intro hc
      rw [List.map_append] at hnd
      obtain ⟨-, -, hdisj⟩ := List.nodup_append.mp hnd
      exact hdisj hc (by simp)
    have hstep : mapAssign m c.1 c.2 = m ++ [c] := by
      simp [mapAssign, hkey]
    have hrec : buildOvMapAux m (c :: t) = buildOvMapAux (m ++ [c]) t := by
      simp [buildOvMapAux, hstep]
    rw [hrec, ih (m ++ [c]) (by simpa using hnd)]
    simp

theorem nlEraseLoop_eq (ov_cut : ℚ) :
    ∀ (l : List ℚ) (res : ℚ) (m : List (ℚ × ℕ)),
      nlEraseLoop ov_cut res l m = (erasedKeys ov_cut res l).foldl mapErase m := by
  intro l
  induction l with
  | nil => intro res m; simp [nlEraseLoop, erasedKeys]
  | cons o rest ih =>
    intro res m
    by_cases h : ov_cut ≤ res + o
    · simp [nlEraseLoop, erasedKeys, h]
    · simp [nlEraseLoop, erasedKeys, h, ih]

theorem eraseFold_filter :
    ∀ (E : List ℚ) (m : List (ℚ × ℕ)),
      E.foldl mapErase m = m.filter (fun p => decide (p.1 ∉ E)) := by
  intro E
  induction E with
  | nil => intro m; simp
  | cons e E ih =>
    intro m
    simp only [List.foldl_cons]
    rw [ih]
    unfold mapErase
    rw [List.filter_filter]
    apply List.filter_congr
    intro p _
    by_cases h1 : p.1 = e <;> by_cases h2 : p.1 ∈ E <;> simp [h1, h2]

theorem map_fst_filter (q : ℚ → Bool) :
    ∀ m : List (ℚ × ℕ),
      (m.filter (fun p => q p.1)).map Prod.fst = (m.map Prod.fst).filter q := by
  intro m
  induction m with
  | nil => simp
  | cons p t ih =>
    by_cases h : q p.1 = true
    · simp [List.filter_cons, h, ih]
    · simp [List.filter_cons, h, ih]

theorem erasedKeys_append (ov_cut : ℚ) :
    ∀ (l : List ℚ) (res : ℚ), ∃ R, l = erasedKeys ov_cut res l ++ R := by
  intro l
  induction l with
  | nil => intro res; exact ⟨[], by simp [erasedKeys]⟩
  | cons o rest ih =>
    intro res
    by_cases h : ov_cut ≤ res + o
    · exact ⟨o :: rest, by simp [erasedKeys, h]⟩
    · obtain ⟨R, hR⟩ := ih (res + o)
      refine ⟨R, ?_⟩
      simp only [erasedKeys, if_neg h, List.cons_append]
      exact congrArg (o :: ·) hR

theorem erasedKeys_sum_lt (ov_cut : ℚ) :
    ∀ (l : List ℚ) (res : ℚ), res < ov_cut →
      res + (erasedKeys ov_cut res l).sum < ov_cut := by
  intro l
  induction l with
  | nil => intro res h; simpa [erasedKeys] using h
  | cons o rest ih =>
    intro res h
    by_cases hc : ov_cut ≤ res + o
    · simpa [erasedKeys, hc] using h
    · have hrec := ih (res + o) (lt_of_not_le hc)
      simp only [erasedKeys, if_neg hc, List.sum_cons]
      linarith

theorem retained_lb (ov_cut : ℚ) :
    ∀ (l : List ℚ), l.Sorted (· ≤ ·) → ∀ (res r : ℚ), r ∈ l →
      r ∉ erasedKeys ov_cut res l →
      ov_cut ≤ res + (erasedKeys ov_cut res l).sum + r := by
  intro l
  induction l with
  | nil => intro _ res r hr; simp at hr
  | cons o rest ih =>
    intro hs res r hr hnot
    by_cases hc : ov_cut ≤ res + o
    · simp only [erasedKeys, if_pos hc, List.sum_nil]
      rcases List.mem_cons.mp hr with rfl | hmem
      · linarith
      · have hor : o ≤ r := List.rel_of_sorted_cons hs r hmem
        linarith
    · simp only [erasedKeys, if_neg hc, List.sum_cons] at hnot ⊢
      have hr2 : r ∈ rest := by
        rcases List.mem_cons.mp hr with rfl | hmem
        · exact absurd (List.mem_cons_self r _) hnot
        · exact hmem
      have hnot2 : r ∉ erasedKeys ov_cut (res + o) rest :=
        fun hx => hnot (List.mem_cons_of_mem _ hx)
      have hrec := ih hs.of_cons (res + o) r hr2 hnot2
      linarith

end NeighborListLemmas

section ExchangeLemmas

theorem drawROne_spec (stream : ℕ → ℚ) (nrepl : ℕ) (prev : List ℤ)
    (hn : 0 < nrepl) (hU : ∀ k, 0 ≤ stream k ∧ stream k < 1) :
    ∀ (fuel k : ℕ) (v : ℤ) (knew : ℕ),
      drawROne stream nrepl prev k fuel = some (v, knew) →
      v ∉ prev ∧ 0 ≤ v ∧ v < (nrepl : ℤ) := by
  intro fuel
  induction fuel with
  | zero => intro k v knew h; simp [drawROne] at h
  | succ fuel ih =>
    intro k v knew h
    simp only [drawROne] at h
    by_cases hmem : (⌊stream k * (nrepl : ℚ)⌋ : ℤ) ∈ prev
    · rw [if_pos hmem] at h
      exact ih (k + 1) v knew h
    · rw [if_neg hmem] at h
      obtain ⟨rfl, rfl⟩ : ⌊stream k * (nrepl : ℚ)⌋ = v ∧ k + 1 = knew := by
        simpa [Prod.ext_iff] using h
      refine ⟨hmem, ?_, ?_⟩
      · exact Int.floor_nonneg.mpr (mul_nonneg (hU k).1 (by positivity))
      · apply Int.floor_lt.mpr
        push_cast
        calc stream k * (nrepl : ℚ) < 1 * (nrepl : ℚ) := by
              apply mul_lt_mul_of_pos_right (hU k).2
              exact_mod_cast hn
          _ = (nrepl : ℚ) := one_mul _

theorem getListGo_spec (stream : ℕ → ℚ) (nrepl : ℕ)
    (hn : 0 < nrepl) (hU : ∀ k, 0 ≤ stream k ∧ stream k < 1) :
    ∀ (cnt : ℕ) (acc : List ℤ) (k fuel : ℕ) (l : List ℤ),
      acc.Nodup → (∀ x ∈ acc, 0 ≤ x ∧ x < (nrepl : ℤ)) →
      getListGo stream nrepl cnt acc k fuel = some l →
      l.Nodup ∧ l.length = acc.length + cnt ∧ ∀ x ∈ l, 0 ≤ x ∧ x < (nrepl : ℤ) := by
  intro cnt
  induction cnt with
  | zero =>
    intro acc k fuel l h1 h2 h
    simp only [getListGo, Option.some.injEq] at h
    subst h
    exact ⟨h1, by simp, h2⟩
  | succ cnt ih =>
    intro acc k fuel l h1 h2 h
    rw [getListGo] at h
    cases hdraw : drawROne stream nrepl acc k fuel with
    | none => rw [hdraw] at h; simp at h
    | some p =>
      obtain ⟨v, knew⟩ := p
      rw [hdraw] at h
      simp only at h
      obtain ⟨hv1, hv2, hv3⟩ := drawROne_spec stream nrepl acc hn hU fuel k v knew hdraw
      have hnd : (acc ++ [v]).Nodup := by
        rw [List.nodup_append]
        refine ⟨h1, List.nodup_singleton v, ?_⟩
        intro a ha hav
        simp only [List.mem_singleton] at hav
        exact hv1 (hav ▸ ha)
      have hbb : ∀ x ∈ acc ++ [v], 0 ≤ x ∧ x < (nrepl : ℤ) := by
        intro x hx
        rcases List.mem_append.mp hx with hx | hx
        · exact h2 x hx
        · simp only [List.mem_singleton] at hx
          subst hx
          exact ⟨hv2, hv3⟩
      obtain ⟨g1, g2, g3⟩ := ih (acc ++ [v]) knew fuel l hnd hbb h
      refine ⟨g1, ?_, g3⟩
      rw [g2, List.length_append, List.length_singleton]
      omega

end ExchangeLemmas

section ClaimC4

/-- C4: every Monte Carlo proposal `sigma + shift` falling outside
`[sigmaMin, sigmaMax]` is replaced by the mirror reflection `2*bound - proposed`
off the violated bound (not a clamp), and — given `sigma` within bounds
beforehand and `|shift| ≤ dsigma ≤ sigmaMax - sigmaMin` — the reflected value
itself lies inside `[sigmaMin, sigmaMax]` (EMMI.cpp:644-648). -/
theorem C4_reflection (smin smax sigma shift dsigma : ℝ)
    (h1 : smin ≤ sigma) (h2 : sigma ≤ smax) (h3 : |shift| ≤ dsigma)
    (h4 : dsigma ≤ smax - smin) :
    (smax < sigma + shift →
      reflectBounds smin smax (sigma + shift) = 2 * smax - (sigma + shift))
    ∧ (sigma + shift < smin →
      reflectBounds smin smax (sigma + shift) = 2 * smin - (sigma + shift))
    ∧ smin ≤ reflectBounds smin smax (sigma + shift)
    ∧ reflectBounds smin smax (sigma + shift) ≤ smax := by
  obtain ⟨ha, hb⟩ := abs_le.mp h3
  obtain ⟨hm1, hm2⟩ := reflect_mem smin smax sigma shift dsigma h1 h2 h3 h4
  refine ⟨?_, ?_, hm1, hm2⟩
  · intro hgt
    have hh : reflectHi smax (sigma + shift) = 2 * smax - (sigma + shift) := by
      unfold reflectHi; rw [if_pos hgt]
    unfold reflectBounds
    rw [hh, if_neg (by linarith)]
  · intro hlt
    have hh : reflectHi smax (sigma + shift) = sigma + shift := by
      unfold reflectHi; rw [if_neg (by linarith)]
    unfold reflectBounds
    rw [hh, if_pos hlt]

/-- Witness for C4 at `smin = 0`, `smax = 1`, `sigma = 1`, `shift = 1`,
`dsigma = 1`: the proposal 2 exceeds the upper bound and reflects to 0. -/
theorem C4_witness :
    |(1:ℝ)| ≤ 1 ∧
    (((1:ℝ) < 1 + 1 → reflectBounds (0:ℝ) 1 (1 + 1) = 2 * 1 - (1 + 1))
      ∧ ((1:ℝ) + 1 < 0 → reflectBounds (0:ℝ) 1 (1 + 1) = 2 * 0 - (1 + 1))
      ∧ (0:ℝ) ≤ reflectBounds (0:ℝ) 1 (1 + 1)
      ∧ reflectBounds (0:ℝ) 1 (1 + 1) ≤ 1) :=
  ⟨by norm_num,
   C4_reflection 0 1 1 1 1 (by norm_num) (by norm_num) (by norm_num) (by norm_num)⟩

end ClaimC4

section ClaimC7

/-- C7 (code bug): `EMMI::check_GMM_d` tests the weight with `if (w < 0.0)`
(EMMI.cpp:782), so a zero weight passes the check without error, although the
code's own comment and error message ("weight must be positive"), the data-model
invariant, and the spec all require strictly positive weights.  With the
identity covariance (which passes the Sylvester test) and `w = 0` the check
returns success; a strictly negative weight is rejected. -/
theorem C7_zero_weight_accepted :
    check_GMM_d ⟨1, 0, 0, 1, 0, 1⟩ 0 = Except.ok ()
    ∧ check_GMM_d ⟨1, 0, 0, 1, 0, 1⟩ (-1)
        = Except.error "check data GMM: weight must be positive" := by
  constructor <;> norm_num [check_GMM_d]

end ClaimC7

section ClaimC3

/-- C3: in sampled mode the reported score is
`1/2 * kT * sum_i (scale*ovmd_i - ovdd_i)^2 / (sigma_mean_i^2 + sigma_i^2)`
(EMMI.cpp:1196-1204), while the prior term `kT*prior*log(s2)` appears only in
the Monte Carlo old/new energy evaluation (EMMI.cpp:635-655, here the old-energy
component of `mcLoop`) and never in the reported score. -/
theorem C3_sampled_score_prior (log : ℝ → ℝ) (kbt prior scale shift : ℝ)
    (ovmd ovdd smean sigma smin smax : ℕ → ℝ) (n : ℕ) (neigh : List ℕ) :
    calculate_sigma_ene kbt scale ovmd ovdd (inv_s2_of smean sigma) n
        = 1 / 2 * kbt * ((List.range n).map (fun i =>
            (scale * ovmd i - ovdd i) ^ 2 / (smean i ^ 2 + sigma i ^ 2))).sum
    ∧ (mcLoop log kbt prior scale ovmd ovdd smean sigma smin smax shift neigh).1
        = (neigh.map (fun i =>
            1 / 2 * kbt * (scale * ovmd i - ovdd i) ^ 2
              / (smean i ^ 2 + sigma i ^ 2))).sum
          + kbt * prior * (neigh.map (fun i =>
              log (smean i * smean i + sigma i * sigma i))).sum := by
  constructor
  · simp only [calculate_sigma_ene]
    rw [foldl_add_eq, zero_add]
    have hfun : (fun i => (scale * ovmd i - ovdd i) * (scale * ovmd i - ovdd i)
          * inv_s2_of smean sigma i)
        = (fun i => (scale * ovmd i - ovdd i) ^ 2 / (smean i ^ 2 + sigma i ^ 2)) := by
      funext i
      unfold inv_s2_of
      ring
    rw [hfun]
    ring
  · have hspec := (mcLoop_fold_spec log kbt prior scale ovmd ovdd smean sigma
      smin smax shift neigh (0, 0, [])).1
    unfold mcLoop
    rw [hspec]
    simp only [zero_add]
    rw [map_add_sum]
    congr 1
    · apply congrArg List.sum
      apply congrArg (neigh.map ·)
      funext i
      ring
    · rw [map_mul_sum]

end ClaimC3

section ClaimC6

theorem regBn_three (ovmd ovdd w : ℕ → ℝ) (n : ℕ)
    (h : ∀ i, i < n → ovdd i = 3 * ovmd i) :
    regBn w ovmd ovdd n = 3 * regBd w ovmd n := by
  unfold regBn regBd
  rw [foldl_add_eq, foldl_add_eq, zero_add, zero_add, ← map_mul_sum]
  apply congrArg List.sum
  apply List.map_congr_left
  intro i hi
  rw [h i (List.mem_range.mp hi)]
  ring

theorem regBnU_three (ovmd ovdd : ℕ → ℝ) (n : ℕ)
    (h : ∀ i, i < n → ovdd i = 3 * ovmd i) :
    regBnU ovmd ovdd n = 3 * regBdU ovmd n := by
  unfold regBnU regBdU
  rw [foldl_add_eq, foldl_add_eq, zero_add, zero_add, ← map_mul_sum]
  apply congrArg List.sum
  apply List.map_congr_left
  intro i hi
  rw [h i (List.mem_range.mp hi)]
  ring

/-- C6: the regression sets `scale = sum(ovmd*ovdd*w)/sum(ovmd^2*w)` with `w = 1`
(unweighted) or `w = 1/(sigma_mean^2 + sigma^2)` (weighted), falls back to
`scale = 1` when either accumulator is non-positive, and recovers `scale = 3`
when `ovdd = 3*ovmd` for every component and the accumulators are positive
(EMMI.cpp:1072-1105). -/
theorem C6_regression (ovmd ovdd smean sigma : ℕ → ℝ) (n : ℕ) :
    (regBd (inv_s2_of smean sigma) ovmd n ≤ 0
        ∨ regBn (inv_s2_of smean sigma) ovmd ovdd n ≤ 0 →
      doRegressionW (inv_s2_of smean sigma) ovmd ovdd n = 1)
    ∧ (0 < regBd (inv_s2_of smean sigma) ovmd n →
        0 < regBn (inv_s2_of smean sigma) ovmd ovdd n →
      doRegressionW (inv_s2_of smean sigma) ovmd ovdd n
        = regBn (inv_s2_of smean sigma) ovmd ovdd n
          / regBd (inv_s2_of smean sigma) ovmd n)
    ∧ ((∀ i, i < n → ovdd i = 3 * ovmd i) →
        0 < regBd (inv_s2_of smean sigma) ovmd n →
      doRegressionW (inv_s2_of smean sigma) ovmd ovdd n = 3)
    ∧ (regBdU ovmd n ≤ 0 ∨ regBnU ovmd ovdd n ≤ 0 → doRegressionU ovmd ovdd n = 1)
    ∧ (0 < regBdU ovmd n → 0 < regBnU ovmd ovdd n →
      doRegressionU ovmd ovdd n = regBnU ovmd ovdd n / regBdU ovmd n)
    ∧ ((∀ i, i < n → ovdd i = 3 * ovmd i) → 0 < regBdU ovmd n →
      doRegressionU ovmd ovdd n = 3) := by
  refine ⟨?_, ?_, ?_, ?_, ?_, ?_⟩
  · intro h
    unfold doRegressionW
    rw [if_pos h]
  · intro hBd hBn
    unfold doRegressionW
    rw [if_neg (by push_neg; exact ⟨hBd, hBn⟩)]
  · intro h3 hBd
    have hBn := regBn_three ovmd ovdd (inv_s2_of smean sigma) n h3
    unfold doRegressionW
    rw [if_neg (by push_neg; constructor <;> nlinarith), hBn,
      mul_div_cancel_right₀ _ (ne_of_gt hBd)]
  · intro h
    unfold doRegressionU
    rw [if_pos h]
  · intro hBd hBn
    unfold doRegressionU
    rw [if_neg (by push_neg; exact ⟨hBd, hBn⟩)]
  · intro h3 hBd
    have hBn := regBnU_three ovmd ovdd n h3
    unfold doRegressionU
    rw [if_neg (by push_neg; constructor <;> nlinarith), hBn,
      mul_div_cancel_right₀ _ (ne_of_gt hBd)]

/-- Witness for C6 at one component with `ovmd = 1`, `ovdd = 3`,
`sigma_mean = 1`, `sigma = 0`: both regressions recover scale 3. -/
theorem C6_witness :
    (0:ℝ) < regBd (inv_s2_of (fun _ => (1:ℝ)) (fun _ => 0)) (fun _ => 1) 1
    ∧ doRegressionW (inv_s2_of (fun _ => (1:ℝ)) (fun _ => 0)) (fun _ => 1) (fun _ => 3) 1 = 3
    ∧ doRegressionU (fun _ => (1:ℝ)) (fun _ => 3) 1 = 3 := by
  have h3 : ∀ i, i < 1 → (fun _ => (3:ℝ)) i = 3 * (fun _ => (1:ℝ)) i := by
    intro i _; norm_num
  have hBd : (0:ℝ) < regBd (inv_s2_of (fun _ => (1:ℝ)) (fun _ => 0)) (fun _ => 1) 1 := by
    norm_num [regBd, inv_s2_of, show List.range 1 = [0] from rfl]
  have hBdU : (0:ℝ) < regBdU (fun _ => (1:ℝ)) 1 := by
    norm_num [regBdU, show List.range 1 = [0] from rfl]
  exact ⟨hBd,
    (C6_regression (fun _ => 1) (fun _ => 3) (fun _ => 1) (fun _ => 0) 1).2.2.1 h3 hBd,
    (C6_regression (fun _ => 1) (fun _ => 3) (fun _ => 1) (fun _ => 0) 1).2.2.2.2.2 h3 hBdU⟩

end ClaimC6

section ClaimC2

/-- C2: in marginal mode, with every `dev = (scale*ovmd - ovdd)/sigma0` nonzero,
the reported score equals `kT/escale = kT*nrep` times the sum over components of
`-log((1/(2*dev)) * erf(dev * inv_sqrt2))`, where `sigma0` is
`sqrt(experimentalError^2 + sigmaMean^2)` fixed at initialization
(EMMI.cpp:468-479, 1283-1295).  The source multiplies `dev` by the hard-coded
constant `inv_sqrt2_ = 0.707106781186548` (EMMI.cpp:277), the double-precision
rounding of `1/sqrt(2)`; the final conjunct bounds that constant's distance from
the exact `1/sqrt(2)` by `1e-15`. -/
theorem C2_marginal_score (erf : ℝ → ℝ) (kbt nrep scale : ℝ)
    (ovmd ovdd err smean : ℕ → ℝ) (n : ℕ)
    (hdev : ∀ i, i < n →
      (scale * ovmd i - ovdd i) / sigma0_of Real.sqrt (err i) (smean i) ≠ 0) :
    calculate_marginal_ene Real.log erf kbt nrep scale ovmd ovdd
        (fun i => sigma0_of Real.sqrt (err i) (smean i)) n
      = kbt * nrep * ((List.range n).map (fun i =>
          -Real.log (1 / (2 * ((scale * ovmd i - ovdd i)
              / sigma0_of Real.sqrt (err i) (smean i)))
            * erf ((scale * ovmd i - ovdd i) / sigma0_of Real.sqrt (err i) (smean i)
              * (inv_sqrt2 : ℝ))))).sum
      ∧ |(inv_sqrt2 : ℝ) - (Real.sqrt 2)⁻¹| < 1e-15 := by
  constructor
  · simp only [calculate_marginal_ene]
    rw [foldl_add_eq, zero_add]
    have hfun : (fun i => -Real.log (1 / 2
          / ((scale * ovmd i - ovdd i) / sigma0_of Real.sqrt (err i) (smean i))
          * erf ((scale * ovmd i - ovdd i) / sigma0_of Real.sqrt (err i) (smean i)
            * (inv_sqrt2 : ℝ))))
        = (fun i => -Real.log (1 / (2 * ((scale * ovmd i - ovdd i)
            / sigma0_of Real.sqrt (err i) (smean i)))
          * erf ((scale * ovmd i - ovdd i) / sigma0_of Real.sqrt (err i) (smean i)
            * (inv_sqrt2 : ℝ)))) := by
      funext i
      rw [div_div]
    rw [hfun, one_div nrep, div_inv_eq_mul]
    ring
  · have hc : (inv_sqrt2 : ℝ) = 0.707106781186548 := by
      norm_num [inv_sqrt2]
    have hs : Real.sqrt 2 * Real.sqrt 2 = 2 := Real.mul_self_sqrt (by norm_num)
    have hpos : 0 < Real.sqrt 2 := Real.sqrt_pos.mpr (by norm_num)
    have hinv : (Real.sqrt 2)⁻¹ = Real.sqrt 2 / 2 := by
      rw [eq_div_iff (by norm_num : (2:ℝ) ≠ 0)]
      calc (Real.sqrt 2)⁻¹ * 2
          = (Real.sqrt 2)⁻¹ * (Real.sqrt 2 * Real.sqrt 2) := by rw [hs]
        _ = ((Real.sqrt 2)⁻¹ * Real.sqrt 2) * Real.sqrt 2 := by ring
        _ = Real.sqrt 2 := by rw [inv_mul_cancel₀ (ne_of_gt hpos), one_mul]
    have hub : Real.sqrt 2 < 1.4142135623730952 := by
      nlinarith [hs, hpos, sq_nonneg (Real.sqrt 2 - 1.4142135623730952)]
    have hlb : (1.4142135623730950 : ℝ) < Real.sqrt 2 := by
      nlinarith [hs, hpos, sq_nonneg (Real.sqrt 2 - 1.4142135623730950)]
    rw [hinv, hc, abs_sub_lt_iff]
    constructor <;> linarith

/-- Witness for C2 at one component with `erf = id`, `scale = kbt = nrep = 1`,
`ovmd = 1`, `ovdd = 0`, `err = 0`, `sigma_mean = 1` (so `sigma0 = 1`, `dev = 1`). -/
theorem C2_witness :
    (∀ i, i < 1 → ((1:ℝ) * 1 - 0) / sigma0_of Real.sqrt 0 1 ≠ 0)
    ∧ (calculate_marginal_ene Real.log (fun x => x) 1 1 1 (fun _ => 1) (fun _ => 0)
        (fun _ => sigma0_of Real.sqrt 0 1) 1
      = 1 * 1 * ((List.range 1).map (fun _ =>
          -Real.log (1 / (2 * (((1:ℝ) * 1 - 0) / sigma0_of Real.sqrt 0 1))
            * (((1:ℝ) * 1 - 0) / sigma0_of Real.sqrt 0 1 * (inv_sqrt2 : ℝ))))).sum
      ∧ |(inv_sqrt2 : ℝ) - (Real.sqrt 2)⁻¹| < 1e-15) := by
  have hs0 : sigma0_of Real.sqrt (0:ℝ) 1 = 1 := by
    unfold sigma0_of
    norm_num [Real.sqrt_one]
  have h : ∀ i, i < 1 → ((1:ℝ) * 1 - 0) / sigma0_of Real.sqrt 0 1 ≠ 0 := by
    intro i _
    rw [hs0]
    norm_num
  exact ⟨h, C2_marginal_score (fun x => x) 1 1 1 (fun _ => 1) (fun _ => 0)
    (fun _ => 0) (fun _ => 1) 1 (fun i hi => h i hi)⟩

end ClaimC2

section ClaimC5

/-- C5 (amended): in sampled mode `sigma` lies within `[sigma_min, sigma_max]`
after initialization (EMMI.cpp:468-479, given nonnegative maximal self-overlap
and nonnegative scaled MC step) and after a committed Monte Carlo cluster move
(EMMI.cpp:656-671, given the usual move preconditions); the non-sampling
workers' update path instead sets every `sigma` to zero (EMMI.cpp:663-665),
which lies within the bounds only when `sigma_min ≤ 0`. -/
theorem C5_sigma_bounds (log : ℝ → ℝ)
    (s0_exp ov_max dsigma0 sigma_ini ov_base kbt prior scale shift dsigma : ℝ)
    (ovmd ovdd smean sigma smin smax : ℕ → ℝ) (neigh : List ℕ)
    (h1 : 0 ≤ ov_max) (h2 : 0 ≤ dsigma0)
    (h3 : ∀ j, smin j ≤ sigma j ∧ sigma j ≤ smax j)
    (h4 : |shift| ≤ dsigma) (h5 : ∀ j, dsigma ≤ smax j - smin j) :
    (sigma_min_of s0_exp
        ≤ sigma_init (sigma_min_of s0_exp) (sigma_max_of ov_max s0_exp dsigma0)
            sigma_ini ov_base
      ∧ sigma_init (sigma_min_of s0_exp) (sigma_max_of ov_max s0_exp dsigma0)
            sigma_ini ov_base
        ≤ sigma_max_of ov_max s0_exp dsigma0)
    ∧ (∀ i,
        smin i ≤ mcCommitList neigh
            (mcLoop log kbt prior scale ovmd ovdd smean sigma smin smax shift neigh).2.2
            sigma i
        ∧ mcCommitList neigh
            (mcLoop log kbt prior scale ovmd ovdd smean sigma smin smax shift neigh).2.2
            sigma i
          ≤ smax i)
    ∧ (∀ i, mcNonSampling sigma i = 0) := by
  refine ⟨⟨le_max_left _ _, ?_⟩, ?_, fun i => rfl⟩
  · apply max_le
    · unfold sigma_min_of sigma_max_of
      linarith
    · exact min_le_left _ _
  · intro i
    have hnew : (mcLoop log kbt prior scale ovmd ovdd smean sigma smin smax shift neigh).2.2
        = neigh.map (fun j => reflectBounds (smin j) (smax j) (sigma j + shift)) := by
      have h := (mcLoop_fold_spec log kbt prior scale ovmd ovdd smean sigma
        smin smax shift neigh (0, 0, [])).2
      simpa [mcLoop] using h
    rw [hnew, mcCommitList_eval]
    by_cases hi : i ∈ neigh
    · rw [if_pos hi]
      exact reflect_mem (smin i) (smax i) (sigma i) shift dsigma (h3 i).1 (h3 i).2 h4 (h5 i)
    · rw [if_neg hi]
      exact h3 i

/-- Counterexample for C5 as stated: with a strictly positive experimental
error the lower bound is `sigma_min = 1`, but the non-sampling workers' path
leaves `sigma = 0`, strictly below it. -/
theorem C5_counterexample :
    ¬ (sigma_min_of (1:ℝ) ≤ mcNonSampling (fun _ => (5:ℝ)) 0) := by
  norm_num [sigma_min_of, mcNonSampling]

/-- Witness for C5: committed cluster move at one component with
`smin = 0`, `smax = 1`, `sigma = 1`, `shift = 1`, `dsigma = 1` stays in
bounds. -/
theorem C5_witness :
    (fun _ => (0:ℝ)) 0 ≤ mcCommitList [0]
        (mcLoop (fun x => x) 1 1 1 (fun _ => 0) (fun _ => 0) (fun _ => 0) (fun _ => 1)
          (fun _ => 0) (fun _ => 1) 1 [0]).2.2 (fun _ => 1) 0
    ∧ mcCommitList [0]
        (mcLoop (fun x => x) 1 1 1 (fun _ => 0) (fun _ => 0) (fun _ => 0) (fun _ => 1)
          (fun _ => 0) (fun _ => 1) 1 [0]).2.2 (fun _ => 1) 0 ≤ (fun _ => (1:ℝ)) 0 :=
  (C5_sigma_bounds (fun x => x) 0 1 0 1 1 1 1 1 1 1
    (fun _ => 0) (fun _ => 0) (fun _ => 0) (fun _ => 1) (fun _ => 0) (fun _ => 1) [0]
    (by norm_num) (le_refl 0) (fun j => by norm_num) (by norm_num)
    (fun j => by norm_num)).2.1 0

end ClaimC5

section ClaimC9

/-- C9: for every data component `i` and `MCcut > 0`, the precomputed Monte
Carlo neighborhood of `i` contains `i` itself (its self-distance 0 is within
the cutoff, EMMI.cpp:531-551), so a committed cluster move proposed from
component `i` writes the reflected shifted value into `i`'s own sigma
(EMMI.cpp:635-659). -/
theorem C9_self_in_cluster (ms : List (Vec3 ℚ)) (MCcut : ℚ) (nGMM : ℕ)
    (log : ℝ → ℝ) (kbt prior scale shift : ℝ)
    (ovmd ovdd smean sigma smin smax : ℕ → ℝ)
    (hc : 0 < MCcut) (hn : nGMM < ms.length) :
    nGMM ∈ (prepareCollectiveMC ms MCcut).getD nGMM []
    ∧ mcCommitList ((prepareCollectiveMC ms MCcut).getD nGMM [])
        (mcLoop log kbt prior scale ovmd ovdd smean sigma smin smax shift
          ((prepareCollectiveMC ms MCcut).getD nGMM [])).2.2 sigma nGMM
      = reflectBounds (smin nGMM) (smax nGMM) (sigma nGMM + shift) := by
  have hrow : (prepareCollectiveMC ms MCcut).getD nGMM []
      = (List.range ms.length).filter (fun j =>
          decide (dist2 (ms.getD nGMM ⟨0, 0, 0⟩) (ms.getD j ⟨0, 0, 0⟩)
            ≤ MCcut * MCcut)) := by
    unfold prepareCollectiveMC
    rw [List.getD_eq_getElem?_getD, List.getElem?_map, List.getElem?_range hn]
    rfl
  have hmem : nGMM ∈ (prepareCollectiveMC ms MCcut).getD nGMM [] := by
    rw [hrow]
    apply List.mem_filter.mpr
    refine ⟨List.mem_range.mpr hn, ?_⟩
    simp only [decide_eq_true_eq]
    have hzero : dist2 (ms.getD nGMM ⟨0, 0, 0⟩) (ms.getD nGMM ⟨0, 0, 0⟩) = 0 := by
      unfold dist2
      ring
    rw [hzero]
    positivity
  refine ⟨hmem, ?_⟩
  have hnew : (mcLoop log kbt prior scale ovmd ovdd smean sigma smin smax shift
        ((prepareCollectiveMC ms MCcut).getD nGMM [])).2.2
      = ((prepareCollectiveMC ms MCcut).getD nGMM []).map
          (fun j => reflectBounds (smin j) (smax j) (sigma j + shift)) := by
    have h := (mcLoop_fold_spec log kbt prior scale ovmd ovdd smean sigma
      smin smax shift ((prepareCollectiveMC ms MCcut).getD nGMM []) (0, 0, [])).2
    simpa [mcLoop] using h
  rw [hnew, mcCommitList_eval, if_pos hmem]

/-- Witness for C9: a single component at the origin with `MCcut = 1` is in its
own cluster and its sigma is moved by the committed cluster move. -/
theorem C9_witness :
    0 ∈ (prepareCollectiveMC [⟨0, 0, 0⟩] 1).getD 0 []
    ∧ mcCommitList ((prepareCollectiveMC [⟨0, 0, 0⟩] 1).getD 0 [])
        (mcLoop (fun x => x) 1 1 1 (fun _ => 0) (fun _ => 0) (fun _ => 0) (fun _ => 1)
          (fun _ => 0) (fun _ => 2) 1
          ((prepareCollectiveMC [⟨0, 0, 0⟩] 1).getD 0 [])).2.2 (fun _ => 1) 0
      = reflectBounds ((fun _ => (0:ℝ)) 0) ((fun _ => (2:ℝ)) 0) ((fun _ => (1:ℝ)) 0 + 1) :=
  C9_self_in_cluster [⟨0, 0, 0⟩] 1 0 (fun x => x) 1 1 1 1
    (fun _ => 0) (fun _ => 0) (fun _ => 0) (fun _ => 1) (fun _ => 0) (fun _ => 2)
    (by norm_num) (by norm_num)

end ClaimC9

section ClaimC10

/-- C10: whenever `ExchangePatterns::getList(ind, nrepl)` returns (modelled by
the fueled `getList` returning `some l`), and the random generator produces
values in [0, 1), the entries are pairwise distinct integers in
`[0, nrepl - 1]` — a permutation of `{0, ..., nrepl - 1}`
(ExchangePatterns.cpp:15-28). -/
theorem C10_getList_permutation (stream : ℕ → ℚ) (nrepl fuel : ℕ) (l : List ℤ)
    (hU : ∀ k, 0 ≤ stream k ∧ stream k < 1)
    (hret : getList stream nrepl fuel = some l) :
    l.Nodup ∧ l.length = nrepl ∧ (∀ x ∈ l, 0 ≤ x ∧ x < (nrepl : ℤ))
      ∧ (∀ x : ℤ, 0 ≤ x → x < (nrepl : ℤ) → x ∈ l) := by
  rcases Nat.eq_zero_or_pos nrepl with hz | hp
  · subst hz
    unfold getList at hret
    simp only [getListGo, Option.some.injEq] at hret
    subst hret
    refine ⟨List.nodup_nil, rfl, by simp, ?_⟩
    intro x hx1 hx2
    simp only [Nat.cast_zero] at hx2
    omega
  · obtain ⟨g1, g2, g3⟩ := getListGo_spec stream nrepl hp hU nrepl [] 0 fuel l
      List.nodup_nil (by simp) hret
    refine ⟨g1, by simpa using g2, g3, ?_⟩
    intro x hx1 hx2
    have hcard : l.toFinset.card = nrepl := by
      rw [List.toFinset_card_of_nodup g1]
      simpa using g2
    have hsub : l.toFinset ⊆ Finset.Ico (0:ℤ) (nrepl:ℤ) := by
      intro y hy
      rw [List.mem_toFinset] at hy
      exact Finset.mem_Ico.mpr (g3 y hy)
    have hIcoCard : (Finset.Ico (0:ℤ) (nrepl:ℤ)).card = nrepl := by
      rw [Int.card_Ico]
      simp
    have heq : l.toFinset = Finset.Ico (0:ℤ) (nrepl:ℤ) :=
      Finset.eq_of_subset_of_card_le hsub (by rw [hcard, hIcoCard])
    have hx : x ∈ l.toFinset := by
      rw [heq]
      exact Finset.mem_Ico.mpr ⟨hx1, hx2⟩
    exact List.mem_toFinset.mp hx

/-- Witness for C10: with a generator stream producing 0, 0, 1/2, ... and two
replicas, the list returned is [0, 1], a permutation of {0, 1} (the second
draw collides with the first and is redrawn). -/
theorem C10_witness :
    ([0, 1] : List ℤ).Nodup ∧ ([0, 1] : List ℤ).length = 2
      ∧ (∀ x ∈ ([0, 1] : List ℤ), 0 ≤ x ∧ x < ((2:ℕ) : ℤ))
      ∧ (∀ x : ℤ, 0 ≤ x → x < ((2:ℕ) : ℤ) → x ∈ ([0, 1] : List ℤ)) := by
  have hU : ∀ k, 0 ≤ (fun k => if k = 2 then (1/2 : ℚ) else 0) k
      ∧ (fun k => if k = 2 then (1/2 : ℚ) else 0) k < 1 := by
    intro k
    by_cases hk : k = 2 <;> simp [hk] <;> norm_num
  exact C10_getList_permutation (fun k => if k = 2 then (1/2 : ℚ) else 0) 2 5 [0, 1]
    hU (by norm_num [getList, getListGo, drawROne])

end ClaimC10

section ClaimC1

theorem nl_keys_spec (f : ℚ) (keys : List ℚ) (hf0 : 0 < f) (hf1 : f ≤ 1)
    (hne : keys ≠ []) (hnd : keys.Nodup) (hpos : ∀ x ∈ keys, 0 < x) :
    (keys.filter (fun o =>
        decide (o ∉ erasedKeys (keys.sum * f) 0 (List.insertionSort (· ≤ ·) keys)))).sum
      = keys.sum - (erasedKeys (keys.sum * f) 0 (List.insertionSort (· ≤ ·) keys)).sum
    ∧ (erasedKeys (keys.sum * f) 0 (List.insertionSort (· ≤ ·) keys)).sum < keys.sum * f
    ∧ (∀ r ∈ keys, r ∉ erasedKeys (keys.sum * f) 0 (List.insertionSort (· ≤ ·) keys) →
        keys.sum * f ≤ (erasedKeys (keys.sum * f) 0 (List.insertionSort (· ≤ ·) keys)).sum + r)
    ∧ keys.filter (fun o =>
        decide (o ∉ erasedKeys (keys.sum * f) 0 (List.insertionSort (· ≤ ·) keys))) ≠ [] := by
  set sorted := List.insertionSort (· ≤ ·) keys with hsorteddef
  set cut := keys.sum * f with hcutdef
  set E := erasedKeys cut 0 sorted with hEdef
  have hperm : List.Perm sorted keys := List.perm_insertionSort _ _
  have hsortnd : sorted.Nodup := hperm.nodup_iff.mpr hnd
  have hsorts : sorted.Sorted (· ≤ ·) := List.sorted_insertionSort _ _
  obtain ⟨R, hER⟩ := erasedKeys_append cut sorted 0
  have hTpos : 0 < keys.sum := List.sum_pos _ hpos hne
  have hcutpos : 0 < cut := mul_pos hTpos hf0
  have hEsum : E.sum < cut := by
    have h := erasedKeys_sum_lt cut sorted 0 hcutpos
    simpa using h
  -- disjointness of E and R
  have hdisj : ∀ x ∈ R, x ∉ E := by
    have hnd2 : (E ++ R).Nodup := hER ▸ hsortnd
    obtain ⟨-, -, hd⟩ := List.nodup_append.mp hnd2
    intro x hx hxE
    exact hd hxE hx
  -- filter over sorted = R
  have hfsorted : sorted.filter (fun o => decide (o ∉ E)) = R := by
    rw [hER, List.filter_append]
    have h1 : E.filter (fun o => decide (o ∉ E)) = [] := by
      apply List.filter_eq_nil_iff.mpr
      intro a ha
      simp [ha]
    have h2 : R.filter (fun o => decide (o ∉ E)) = R := by
      apply List.filter_eq_self.mpr
      intro a ha
      simpa using hdisj a ha
    rw [h1, h2, List.nil_append]
  have hfperm : List.Perm (keys.filter (fun o => decide (o ∉ E))) R := by
    have hp := (hperm.symm).filter (fun o => decide (o ∉ E))
    rw [hfsorted] at hp
    exact hp
  have hsums : E.sum + R.sum = keys.sum := by
    have h := hperm.sum_eq
    rw [hER, List.sum_append] at h
    exact h
  have hfsum : (keys.filter (fun o => decide (o ∉ E))).sum = keys.sum - E.sum := by
    rw [hfperm.sum_eq]
    linarith
  refine ⟨hfsum, hEsum, ?_, ?_⟩
  · intro r hr hnotE
    have hrs : r ∈ sorted := hperm.mem_iff.mpr hr
    have h := retained_lb cut sorted hsorts 0 r hrs hnotE
    simpa using h
  · intro hempty
    rw [hempty] at hfperm
    have hRnil : R = [] := (List.Perm.symm hfperm).eq_nil
    rw [hRnil, List.sum_nil] at hsums
    have hcutle : cut ≤ keys.sum := by
      rw [hcutdef]
      nlinarith
    linarith

/-- C1 (amended): after a neighbor-list rebuild with cutoffFraction in (0,1],
for every data component with a non-empty candidate set whose table-approximated
overlap values are pairwise distinct, the retained set is non-empty, its
overlap-sum is strictly greater than (1 - cutoffFraction) times the total
overlap mass of the candidates (the parameter bounds the *removed* mass, which
stays strictly below cutoffFraction * totalMass), and removing any further
retained atom would violate that bound (EMMI.cpp:969-1010). -/
theorem C1_retained_mass (f : ℚ) (cands : List (ℚ × ℕ)) (hf0 : 0 < f) (hf1 : f ≤ 1)
    (hne : cands ≠ []) (hnd : (cands.map Prod.fst).Nodup)
    (hpos : ∀ p ∈ cands, 0 < p.1) :
    update_nl_component f cands ≠ []
    ∧ (1 - f) * (cands.map Prod.fst).sum
        < ((update_nl_component f cands).map Prod.fst).sum
    ∧ ∀ p ∈ update_nl_component f cands,
        ((update_nl_component f cands).map Prod.fst).sum - p.1
          ≤ (1 - f) * (cands.map Prod.fst).sum := by
  have hbuild : buildOvMap cands = cands := buildOvMapAux_eq cands [] (by simpa using hnd)
  have hM : update_nl_component f cands
      = cands.filter (fun p => decide (p.1 ∉ erasedKeys ((cands.map Prod.fst).sum * f) 0
          (List.insertionSort (· ≤ ·) (cands.map Prod.fst)))) := by
    unfold update_nl_component
    rw [hbuild, nlEraseLoop_eq, eraseFold_filter]
  have hkeysne : cands.map Prod.fst ≠ [] := by
    intro h
    exact hne (List.map_eq_nil.mp h)
  have hkeypos : ∀ x ∈ cands.map Prod.fst, 0 < x := by
    intro x hx
    obtain ⟨p, hp, rfl⟩ := List.mem_map.mp hx
    exact hpos p hp
  obtain ⟨hfsum, hEsum, hlb, hfne⟩ :=
    nl_keys_spec f (cands.map Prod.fst) hf0 hf1 hkeysne hnd hkeypos
  have hmapfst : (update_nl_component f cands).map Prod.fst
      = (cands.map Prod.fst).filter (fun o =>
          decide (o ∉ erasedKeys ((cands.map Prod.fst).sum * f) 0
            (List.insertionSort (· ≤ ·) (cands.map Prod.fst)))) := by
    rw [hM]
    exact map_fst_filter (fun o =>
      decide (o ∉ erasedKeys ((cands.map Prod.fst).sum * f) 0
        (List.insertionSort (· ≤ ·) (cands.map Prod.fst)))) cands
  have hid : (1 - f) * (cands.map Prod.fst).sum
      = (cands.map Prod.fst).sum - (cands.map Prod.fst).sum * f := by ring
  refine ⟨?_, ?_, ?_⟩
  · intro h
    apply hfne
    rw [← hmapfst, h]
    rfl
  · rw [hmapfst, hfsum, hid]
    linarith
  · intro p hp
    rw [hM] at hp
    obtain ⟨hpc, hpE⟩ := List.mem_filter.mp hp
    have hpE2 : p.1 ∉ erasedKeys ((cands.map Prod.fst).sum * f) 0
        (List.insertionSort (· ≤ ·) (cands.map Prod.fst)) := of_decide_eq_true hpE
    have hkey : p.1 ∈ cands.map Prod.fst := List.mem_map_of_mem Prod.fst hpc
    have h := hlb p.1 hkey hpE2
    rw [hmapfst, hfsum, hid]
    linarith

/-- Counterexample for C1 as stated: with cutoffFraction = 1 (which is in
(0,1]) and candidate overlaps {1, 2}, the integration loop erases the
contributor 1 (running sum 1 < cutoff 3) and stops at 2, so the retained
overlap-sum is 2, strictly below cutoffFraction * totalMass = 3. -/
theorem C1_counterexample :
    ((update_nl_component 1 [((1:ℚ), 0), (2, 1)]).map Prod.fst).sum
      < 1 * (([((1:ℚ), 0), (2, 1)] : List (ℚ × ℕ)).map Prod.fst).sum := by
  norm_num [update_nl_component, buildOvMap, buildOvMapAux, mapAssign, nlEraseLoop,
    mapErase, List.insertionSort, List.orderedInsert]

/-- Witness for C1 at cutoffFraction 1/2 with candidates
(overlap 1, atom 0), (overlap 2, atom 1). -/
theorem C1_witness :
    (0 : ℚ) < 1/2 ∧
    (update_nl_component (1/2) [((1:ℚ), 0), (2, 1)] ≠ []
      ∧ (1 - 1/2) * (([((1:ℚ), 0), (2, 1)] : List (ℚ × ℕ)).map Prod.fst).sum
          < ((update_nl_component (1/2) [((1:ℚ), 0), (2, 1)]).map Prod.fst).sum
      ∧ ∀ p ∈ update_nl_component (1/2) [((1:ℚ), 0), (2, 1)],
          ((update_nl_component (1/2) [((1:ℚ), 0), (2, 1)]).map Prod.fst).sum - p.1
            ≤ (1 - 1/2) * (([((1:ℚ), 0), (2, 1)] : List (ℚ × ℕ)).map Prod.fst).sum) :=
  ⟨by norm_num,
   C1_retained_mass (1/2) [((1:ℚ), 0), (2, 1)] (by norm_num) (by norm_num)
     (by simp) (by norm_num) (by norm_num [Prod.forall])⟩

end ClaimC1

section ClaimC8

/-- C8 (amended): `get_self_overlap` is a dense sum over all data components
with no pruning, but it computes each pairwise overlap through `get_overlap`,
which applies the periodicity-aware displacement; for a single-component data
GMM the self-overlap equals exactly the pair prefactor (no exponential decay at
zero displacement) whenever the displacement of a point from itself is zero —
in particular with periodicity disabled, or for any sane periodic image map
(EMMI.cpp:903-939). -/
theorem C8_self_overlap_single (pbc : Bool) (pbcDist : Vec3 ℝ → Vec3 ℝ → Vec3 ℝ)
    (cfact : ℝ) (m : ℕ → Vec3 ℝ) (cov : ℕ → Sym6 ℝ) (w : ℕ → ℝ)
    (hdist : pbcDist (m 0) (m 0) = ⟨0, 0, 0⟩) :
    get_self_overlap Real.exp pbc pbcDist cfact Real.sqrt 1 m cov w 0
      = pre_fact cfact Real.sqrt (cov 0) (cov 0) (w 0) (w 0) := by
  have hmd : (if pbc then pbcDist (m 0) (m 0) else deltaV (m 0) (m 0)) = (⟨0,0,0⟩ : Vec3 ℝ) := by
    cases pbc
    · simp [deltaV]
    · simpa using hdist
  unfold get_self_overlap
  rw [show List.range 1 = [0] from rfl]
  simp only [List.foldl_cons, List.foldl_nil]
  unfold get_overlap
  rw [hmd]
  have hq : quadForm (invCov (sumCov (cov 0) (cov 0))) (⟨0,0,0⟩ : Vec3 ℝ) = 0 := by
    simp [quadForm]
  rw [hq]
  norm_num [Real.exp_zero]

/-- Witness for C8: single data component at the origin, periodicity disabled
(`delta` displacement), arbitrary covariance and weight functions evaluated at
the probe data. -/
theorem C8_witness :
    deltaV ((mEx : ℕ → Vec3 ℝ) 0) ((mEx : ℕ → Vec3 ℝ) 0) = (⟨0, 0, 0⟩ : Vec3 ℝ)
    ∧ get_self_overlap Real.exp false (deltaV : Vec3 ℝ → Vec3 ℝ → Vec3 ℝ)
        (1 / (2 * Real.pi) ^ (1.5:ℝ)) Real.sqrt 1 mEx covEx wEx 0
      = pre_fact (1 / (2 * Real.pi) ^ (1.5:ℝ)) Real.sqrt
          ((covEx : ℕ → Sym6 ℝ) 0) (covEx 0) ((wEx : ℕ → ℝ) 0) (wEx 0) := by
  have hd : deltaV ((mEx : ℕ → Vec3 ℝ) 0) ((mEx : ℕ → Vec3 ℝ) 0) = (⟨0, 0, 0⟩ : Vec3 ℝ) := by
    simp [deltaV, mEx]
  exact ⟨hd, C8_self_overlap_single false deltaV (1 / (2 * Real.pi) ^ (1.5:ℝ))
    mEx covEx wEx hd⟩

/-- Counterexample for C8 as stated ("independent of the periodicity setting
and the box"): with two components 10 apart, unit weights, isotropic covariance
1/2, and a minimal-image displacement for a unit box, the self-overlap of
component 0 with periodicity enabled differs from the one with periodicity
disabled — the pbc branch folds the 10-apart component onto the origin. -/
theorem C8_counterexample :
    get_self_overlap Real.exp false (boxDist : Vec3 ℝ → Vec3 ℝ → Vec3 ℝ)
        (1 / (2 * Real.pi) ^ (1.5:ℝ)) Real.sqrt 2 mEx covEx wEx 0
      ≠ get_self_overlap Real.exp true (boxDist : Vec3 ℝ → Vec3 ℝ → Vec3 ℝ)
        (1 / (2 * Real.pi) ^ (1.5:ℝ)) Real.sqrt 2 mEx covEx wEx 0 := by
  have hcf : (0:ℝ) < 1 / (2 * Real.pi) ^ (1.5:ℝ) := by positivity
  have hic : invCov (sumCov (⟨1/2,0,0,1/2,0,1/2⟩ : Sym6 ℝ) ⟨1/2,0,0,1/2,0,1/2⟩)
      = (⟨1,0,0,1,0,1⟩ : Sym6 ℝ) := by
    norm_num [invCov, sumCov, det6]
  have hpf : pre_fact (1 / (2 * Real.pi) ^ (1.5:ℝ)) Real.sqrt
      (⟨1/2,0,0,1/2,0,1/2⟩ : Sym6 ℝ) ⟨1/2,0,0,1/2,0,1/2⟩ 1 1
      = 1 / (2 * Real.pi) ^ (1.5:ℝ) := by
    unfold pre_fact
    norm_num [sumCov, det6, Real.sqrt_one]
  have h10 : round ((-10:ℝ)) = -10 := by
    rw [show ((-10:ℝ)) = ((-10 : ℤ) : ℝ) by norm_num]
    exact round_intCast _
  have hqd : quadForm (⟨1,0,0,1,0,1⟩ : Sym6 ℝ) (deltaV ⟨10,0,0⟩ ⟨0,0,0⟩) = 100 := by
    norm_num [quadForm, deltaV]
  have hqz : quadForm (⟨1,0,0,1,0,1⟩ : Sym6 ℝ) (deltaV ⟨0,0,0⟩ ⟨0,0,0⟩) = 0 := by
    norm_num [quadForm, deltaV]
  have hqb0 : quadForm (⟨1,0,0,1,0,1⟩ : Sym6 ℝ) (boxDist ⟨0,0,0⟩ ⟨0,0,0⟩) = 0 := by
    norm_num [quadForm, boxDist]
  have hqb1 : quadForm (⟨1,0,0,1,0,1⟩ : Sym6 ℝ) (boxDist ⟨10,0,0⟩ ⟨0,0,0⟩) = 0 := by
    norm_num [quadForm, boxDist, h10]
  have hL : get_self_overlap Real.exp false (boxDist : Vec3 ℝ → Vec3 ℝ → Vec3 ℝ)
      (1 / (2 * Real.pi) ^ (1.5:ℝ)) Real.sqrt 2 mEx covEx wEx 0
      = 1 / (2 * Real.pi) ^ (1.5:ℝ) + 1 / (2 * Real.pi) ^ (1.5:ℝ) * Real.exp (-50) := by
    unfold get_self_overlap
    rw [show List.range 2 = [0, 1] from rfl]
    simp only [List.foldl_cons, List.foldl_nil]
    unfold get_overlap
    simp only [mEx, covEx, wEx, show ((0:ℕ) = 0) = True by simp,
      show ((1:ℕ) = 0) = False by simp, if_true, if_false, Bool.false_eq_true]
    rw [hic, hpf, hqd, hqz]
    rw [show (-(1/2) * (0:ℝ)) = 0 by norm_num, show (-(1/2) * (100:ℝ)) = -50 by norm_num]
    rw [Real.exp_zero]
    ring
  have hR : get_self_overlap Real.exp true (boxDist : Vec3 ℝ → Vec3 ℝ → Vec3 ℝ)
      (1 / (2 * Real.pi) ^ (1.5:ℝ)) Real.sqrt 2 mEx covEx wEx 0
      = 1 / (2 * Real.pi) ^ (1.5:ℝ) + 1 / (2 * Real.pi) ^ (1.5:ℝ) := by
    unfold get_self_overlap
    rw [show List.range 2 = [0, 1] from rfl]
    simp only [List.foldl_cons, List.foldl_nil]
    unfold get_overlap
    simp only [mEx, covEx, wEx, show ((0:ℕ) = 0) = True by simp,
      show ((1:ℕ) = 0) = False by simp, if_true, if_false]
    rw [hic, hpf, hqb0, hqb1]
    rw [show (-(1/2) * (0:ℝ)) = 0 by norm_num]
    rw [Real.exp_zero]
    ring
  rw [hL, hR]
  have hexp : Real.exp (-50) < 1 := by
    rw [show (1:ℝ) = Real.exp 0 from (Real.exp_zero).symm]
    exact Real.exp_lt_exp.mpr (by norm_num)
  intro h
  nlinarith [hcf, hexp]

end ClaimC8
